import Mathlib

/-!
Verification of the moshi streaming-audio server's session pipeline
(`server_opus.py` / `moshi/moshi/server.py`) against its specification.

The development shallowly embeds:
* the frame accumulator inside `opus_loop` (PCM chunk concatenation and
  fixed-size frame slicing),
* the per-step text-token handling of `opus_loop` and the transport writes
  of `send_loop`,
* the inbound-message dispatch of `recv_loop` (both the `websockets`-based
  and the `aiohttp`-based variant),
* the session lifecycle of `handle_conn` / `handle_chat` (lock acquisition,
  `reset_streaming`, handshake, loop execution, lock release) as a labelled
  transition system over cooperative interleavings, and
* the teardown behaviour on a model-resource exception as a session trace.
-/

namespace NLM

/-! ## Frame accumulator (`opus_loop`, server_opus.py lines 133-153)

`all_pcm_data` accumulates decoded PCM; while it holds at least
`frame_size` samples, the first `frame_size` samples are sliced off as a
frame and passed to `ec.encode`. -/

/-- The inner `while all_pcm_data.shape[-1] >= self.frame_size` loop:
repeatedly slice `buf[:frameSize]` off as a frame, keeping `buf[frameSize:]`,
until fewer than `frameSize` samples remain.  Returns the frames in slicing
order together with the leftover buffer. -/
def drainFrames (frameSize : Nat) (buf : List α) : List (List α) × List α :=
  if h : 0 < frameSize ∧ frameSize ≤ buf.length then
    have hlt : (buf.drop frameSize).length < buf.length := by
      rw [List.length_drop]
      omega
    let r := drainFrames frameSize (buf.drop frameSize)
    (buf.take frameSize :: r.1, r.2)
  else
    ([], buf)
  termination_by buf.length

/-- One iteration of the outer `while True` loop of `opus_loop`, after
`read_pcm` returned `pcm`: if `pcm` is empty the iteration is a `continue`
(buffer untouched, no frames); otherwise `pcm` is appended to
`all_pcm_data` (which starts out as `None`) and the inner loop drains
full frames. -/
def opusIterate (frameSize : Nat) (buf : Option (List α)) (pcm : List α) :
    List (List α) × Option (List α) :=
  if pcm.length = 0 then ([], buf)
  else
    let all := match buf with
      | none => pcm
      | some b => b ++ pcm
    let r := drainFrames frameSize all
    (r.1, some r.2)

/-- Samples currently held by the accumulation buffer (`None` holds none). -/
def bufSamples : Option (List α) → List α
  | none => []
  | some b => b

/-- Running `opus_loop` over a whole arrival sequence of PCM chunks,
starting from `all_pcm_data = None`: the frames handed to `encode`, in
call order, and the final accumulation buffer. -/
def processChunks (frameSize : Nat) (chunks : List (List α)) :
    List (List α) × Option (List α) :=
  chunks.foldl
    (fun acc pcm =>
      let r := opusIterate frameSize acc.2 pcm
      (acc.1 ++ r.1, r.2))
    ([], none)

/-! ### Frame-accumulator lemmas -/

theorem drainFrames_join (frameSize : Nat) (buf : List α) :
    (drainFrames frameSize buf).1.flatten ++ (drainFrames frameSize buf).2 = buf := by
  induction buf using drainFrames.induct frameSize with
  | case1 buf h hlt ih =>
    rw [drainFrames, dif_pos h]
    simp only [List.flatten_cons, List.append_assoc]
    rw [ih]
    exact List.take_append_drop frameSize buf
  | case2 buf h =>
    rw [drainFrames, dif_neg h]
    simp

theorem drainFrames_rest_lt (frameSize : Nat) (hpos : 0 < frameSize)
    (buf : List α) : (drainFrames frameSize buf).2.length < frameSize := by
  induction buf using drainFrames.induct frameSize with
  | case1 buf h hlt ih =>
    rw [drainFrames, dif_pos h]
    exact ih
  | case2 buf h =>
    rw [drainFrames, dif_neg h]
    show buf.length < frameSize
    omega

theorem drainFrames_frame_len (frameSize : Nat) (buf : List α) :
    ∀ f ∈ (drainFrames frameSize buf).1, f.length = frameSize := by
  induction buf using drainFrames.induct frameSize with
  | case1 buf h hlt ih =>
    rw [drainFrames, dif_pos h]
    intro f hf
    rcases List.mem_cons.mp hf with hf | hf
    · subst hf
      exact List.length_take_of_le h.2
    · exact ih f hf
  | case2 buf h =>
    rw [drainFrames, dif_neg h]
    simp

theorem opusIterate_join (frameSize : Nat) (buf : Option (List α))
    (pcm : List α) :
    (opusIterate frameSize buf pcm).1.flatten
      ++ bufSamples (opusIterate frameSize buf pcm).2
      = bufSamples buf ++ pcm := by
  unfold opusIterate
  by_cases hp : pcm.length = 0
  · rw [if_pos hp]
    have : pcm = [] := List.length_eq_zero.mp hp
    simp [this]
  · rw [if_neg hp]
    cases buf with
    | none => simpa [bufSamples] using drainFrames_join frameSize pcm
    | some b => simpa [bufSamples] using drainFrames_join frameSize (b ++ pcm)

theorem drainFrames_step (frameSize : Nat) (buf : List α)
    (h : 0 < frameSize ∧ frameSize ≤ buf.length) :
    drainFrames frameSize buf
      = (buf.take frameSize :: (drainFrames frameSize (buf.drop frameSize)).1,
         (drainFrames frameSize (buf.drop frameSize)).2) := by
  rw [drainFrames, dif_pos h]

theorem drainFrames_stop (frameSize : Nat) (buf : List α)
    (h : ¬(0 < frameSize ∧ frameSize ≤ buf.length)) :
    drainFrames frameSize buf = ([], buf) := by
  rw [drainFrames, dif_neg h]

theorem processChunks_foldl_join (frameSize : Nat) (chunks : List (List α))
    (fs : List (List α)) (buf : Option (List α)) :
    (chunks.foldl
      (fun acc pcm =>
        let r := opusIterate frameSize acc.2 pcm
        (acc.1 ++ r.1, r.2)) (fs, buf)).1.flatten
      ++ bufSamples (chunks.foldl
      (fun acc pcm =>
        let r := opusIterate frameSize acc.2 pcm
        (acc.1 ++ r.1, r.2)) (fs, buf)).2
      = fs.flatten ++ bufSamples buf ++ chunks.flatten := by
  induction chunks generalizing fs buf with
  | nil => simp
  | cons c cs ih =>
    simp only [List.foldl_cons, List.flatten_cons]
    rw [ih]
    have h := opusIterate_join frameSize buf c
    simp only [List.flatten_append, List.append_assoc]
    congr 1
    rw [← List.append_assoc, h, List.append_assoc]

theorem opusIterate_buf_lt (frameSize : Nat) (hpos : 0 < frameSize)
    (buf : Option (List α)) (pcm : List α)
    (hbuf : (bufSamples buf).length < frameSize) :
    (bufSamples (opusIterate frameSize buf pcm).2).length < frameSize := by
  unfold opusIterate
  by_cases hp : pcm.length = 0
  · rw [if_pos hp]
    exact hbuf
  · rw [if_neg hp]
    cases buf with
    | none => simpa [bufSamples] using drainFrames_rest_lt frameSize hpos pcm
    | some b => simpa [bufSamples] using drainFrames_rest_lt frameSize hpos (b ++ pcm)

theorem opusIterate_frame_len (frameSize : Nat) (buf : Option (List α))
    (pcm : List α) :
    ∀ f ∈ (opusIterate frameSize buf pcm).1, f.length = frameSize := by
  unfold opusIterate
  by_cases hp : pcm.length = 0
  · rw [if_pos hp]
    simp
  · rw [if_neg hp]
    cases buf with
    | none => simpa using drainFrames_frame_len frameSize pcm
    | some b => simpa using drainFrames_frame_len frameSize (b ++ pcm)

theorem processChunks_foldl_inv (frameSize : Nat) (hpos : 0 < frameSize)
    (chunks : List (List α)) (fs : List (List α)) (buf : Option (List α))
    (hbuf : (bufSamples buf).length < frameSize)
    (hfs : ∀ f ∈ fs, f.length = frameSize) :
    (bufSamples (chunks.foldl
      (fun acc pcm =>
        let r := opusIterate frameSize acc.2 pcm
        (acc.1 ++ r.1, r.2)) (fs, buf)).2).length < frameSize ∧
    ∀ f ∈ (chunks.foldl
      (fun acc pcm =>
        let r := opusIterate frameSize acc.2 pcm
        (acc.1 ++ r.1, r.2)) (fs, buf)).1, f.length = frameSize := by
  induction chunks generalizing fs buf with
  | nil => exact ⟨hbuf, hfs⟩
  | cons c cs ih =>
    simp only [List.foldl_cons]
    refine ih _ _ (opusIterate_buf_lt frameSize hpos buf c hbuf) ?_
    intro f hf
    rcases List.mem_append.mp hf with hf | hf
    · exact hfs f hf
    · exact opusIterate_frame_len frameSize buf c f hf

/-! ## Claim theorems for the frame accumulator -/

/-- C1: over any arrival sequence of PCM chunks drained by the Process
loop, the frames passed to `encode` concatenated with the samples left in
the accumulation buffer are exactly the chunks concatenated in arrival
order (no sample lost, duplicated or reordered); in particular the sample
counts balance. -/
theorem frame_conservation (frameSize : Nat) (chunks : List (List α)) :
    (processChunks frameSize chunks).1.flatten
        ++ bufSamples (processChunks frameSize chunks).2 = chunks.flatten ∧
    ((processChunks frameSize chunks).1.map List.length).sum
        + (bufSamples (processChunks frameSize chunks).2).length
      = (chunks.map List.length).sum := by
  have h := processChunks_foldl_join frameSize chunks [] none
  simp only [List.flatten_nil, bufSamples, List.nil_append] at h
  refine ⟨h, ?_⟩
  have h2 := congrArg List.length h
  simpa [List.length_append, List.length_flatten] using h2

/-- The buffer contents during each pass of the inner
`while all_pcm_data.shape[-1] >= self.frame_size` loop: line 150 of
server_opus.py reassigns `all_pcm_data = all_pcm_data[self.frame_size:]`
before the model calls of that pass, so this is what the buffer holds at
any suspension point inside the pass — in particular at the
`await websocket.send(msg)` of line 168 when the pass produces a kind-2
text message.  Entry `k` is the buffer held while the `k`-th sliced
frame of this drain is being processed. -/
def drainBuffers (frameSize : Nat) (buf : List α) : List (List α) :=
  if h : 0 < frameSize ∧ frameSize ≤ buf.length then
    have hlt : (buf.drop frameSize).length < buf.length := by
      rw [List.length_drop]
      omega
    buf.drop frameSize :: drainBuffers frameSize (buf.drop frameSize)
  else
    []
  termination_by buf.length

/-- C10 (amended): with a positive frame size, at the end of every outer
Process-loop iteration — the poll-cycle boundary where the loop re-checks
`closing` and sleeps — the accumulation buffer holds strictly fewer than
`frameSize` samples (the initial `None` buffer holds none), and every
chunk handed to `encode` has exactly `frameSize` samples.  The
mid-iteration suspension point at the kind-2 text send inside the inner
slicing loop is excluded: there the buffer may still hold `frameSize` or
more samples, as the counterexample shows. -/
theorem process_loop_buffer_invariant (frameSize : Nat) (hpos : 0 < frameSize)
    (chunks : List (List α)) :
    (bufSamples (processChunks frameSize chunks).2).length < frameSize ∧
    ∀ f ∈ (processChunks frameSize chunks).1, f.length = frameSize := by
  unfold processChunks
  exact processChunks_foldl_inv frameSize hpos chunks [] none
    (by simpa [bufSamples] using hpos) (by simp)

/-- Witness for C10 at `frameSize = 2` on the single chunk `[5, 6, 7]`:
after the iteration the buffer holds one sample, fewer than the frame
size. -/
theorem process_loop_buffer_invariant_witness :
    (bufSamples (processChunks 2 [[(5 : Nat), 6, 7]]).2).length < 2 :=
  (process_loop_buffer_invariant 2 (by decide) [[(5 : Nat), 6, 7]]).1

/-! ## Wire messages and per-step text handling
(`opus_loop` lines 162-168 and `send_loop` lines 171-179 of
server_opus.py; lines 137-143 and 146-153 of moshi/server.py) -/

/-- A message written to the transport, as built by the server code:
`b"\x00"` (handshake), `b"\x01" + opusBytes` (audio), or
`b"\x02" + utf8(text)` (text). -/
inductive WireMsg where
  | shake : WireMsg
  | audio : List Nat → WireMsg
  | text : String → WireMsg
deriving DecidableEq

/-- The one-byte discriminant the server puts in front of the payload. -/
def WireMsg.kindByte : WireMsg → Nat
  | .shake => 0
  | .audio _ => 1
  | .text _ => 2

/-- Lines 162-168 of server_opus.py: read `text_token = tokens[0,0,0]`;
if it is not one of the reserved ids `0` and `3`, map it through
`text_tokenizer.id_to_piece`, replace the sentencepiece word-boundary
marker `▁` with a space, and build the kind-2 message; otherwise no text
message is produced for this step. -/
def stepTextMsg (idToPiece : Nat → String) (textToken : Nat) :
    Option WireMsg :=
  if textToken ≠ 0 ∧ textToken ≠ 3 then
    some (.text ((idToPiece textToken).replace "▁" " "))
  else
    none

/-- The messages that `opus_loop` itself writes to the websocket during
one model step (line 168: `await websocket.send(msg)` executed inside the
Process loop): exactly the text message of that step, when one is
produced. -/
def opusStepTransportWrites (idToPiece : Nat → String) (textToken : Nat) :
    List WireMsg :=
  match stepTextMsg idToPiece textToken with
  | some m => [m]
  | none => []

/-- One iteration of `send_loop` (lines 171-179): read the encoder bytes;
if nonempty, write `b"\x01" + msg`; otherwise write nothing. -/
def sendLoopTransportWrite (encoded : List Nat) : Option WireMsg :=
  if 0 < encoded.length then some (.audio encoded) else none

/-- C5: when the text-channel token is one of the two reserved ids
(`0`, the pad, or `3`, the end marker), the step produces no kind-2
message; a kind-2 message arises only from a non-reserved token. -/
theorem text_filtering (idToPiece : Nat → String) (textToken : Nat) :
    (textToken = 0 ∨ textToken = 3 → stepTextMsg idToPiece textToken = none) ∧
    (stepTextMsg idToPiece textToken ≠ none →
      textToken ≠ 0 ∧ textToken ≠ 3) := by
  constructor
  · intro h
    unfold stepTextMsg
    rw [if_neg]
    intro hc
    rcases h with h | h
    · exact hc.1 h
    · exact hc.2 h
  · intro h
    by_contra hc
    apply h
    unfold stepTextMsg
    rw [if_neg hc]

/-- Witness for C5 at the reserved pad id `0` and at the non-reserved
id `7`, for the constant tokenizer returning `"tok"`. -/
theorem text_filtering_witness :
    stepTextMsg (fun _ => "tok") 0 = none ∧
    stepTextMsg (fun _ => "tok") 7 ≠ none := by
  constructor
  · exact (text_filtering (fun _ => "tok") 0).1 (Or.inl rfl)
  · simp [stepTextMsg]

/-- C4 counterexample: on the model step with (non-reserved) text token
`5` and a tokenizer mapping it to `"▁hi"`, the Process loop
(`opus_loop`) itself writes the kind-2 message to the transport — so the
kind-2 write is not performed by the Egress loop as the claim states. -/
theorem text_sent_by_process_loop :
    (opusStepTransportWrites (fun _ => "▁hi") 5).map WireMsg.kindByte = [2] := by
  rfl

/-- C4 (amended): for a non-reserved text token, the Process loop maps it
through the tokenizer, replaces the word-boundary marker `▁` with a
space, and itself sends the resulting kind-2 message directly on the
transport; every transport write of the Egress loop (`send_loop`) is a
kind-1 audio message. -/
theorem text_step_message (idToPiece : Nat → String) (textToken : Nat)
    (h0 : textToken ≠ 0) (h3 : textToken ≠ 3) :
    opusStepTransportWrites idToPiece textToken
      = [WireMsg.text ((idToPiece textToken).replace "▁" " ")] ∧
    ∀ encoded m, sendLoopTransportWrite encoded = some m →
      m.kindByte = 1 := by
  constructor
  · unfold opusStepTransportWrites stepTextMsg
    rw [if_pos ⟨h0, h3⟩]
  · intro encoded m hm
    unfold sendLoopTransportWrite at hm
    by_cases he : 0 < encoded.length
    · rw [if_pos he] at hm
      cases hm
      rfl
    · rw [if_neg he] at hm
      cases hm

/-- Witness for the amended C4 at token `5` with a tokenizer returning
`"▁hi"`: the Process loop writes exactly the kind-2 message `" hi"`. -/
theorem text_step_message_witness :
    opusStepTransportWrites (fun _ => "▁hi") 5
      = [WireMsg.text ((( fun _ => "▁hi") 5).replace "▁" " ")] :=
  (text_step_message (fun _ => "▁hi") 5 (by decide) (by decide)).1

/-- C10 counterexample: with `frameSize = 2`, when the single chunk
`[1, 2, 3, 4]` (two frames' worth of samples) arrives and the first
frame's model step yields the non-reserved text token `5`, the Process
loop suspends at the kind-2 send of line 168 — and at that suspension
point the accumulation buffer is `[3, 4]`, which does not hold strictly
fewer than `frameSize` samples.  So the invariant fails at a reachable
suspension point, though it holds at outer-iteration boundaries. -/
theorem process_loop_buffer_invariant_counterexample :
    stepTextMsg (fun _ => "▁hi") 5 ≠ none ∧
    (drainBuffers 2 [(1 : Nat), 2, 3, 4]).head? = some [3, 4] ∧
    ¬ ([3, 4] : List Nat).length < 2 := by
  refine ⟨by simp [stepTextMsg], ?_, by decide⟩
  rw [drainBuffers,
    dif_pos (by decide : 0 < 2 ∧ 2 ≤ ([(1 : Nat), 2, 3, 4]).length)]
  rfl

/-! ## Ingest dispatch (`recv_loop`, server_opus.py lines 111-131 and
moshi/server.py lines 79-106) -/

/-- An inbound transport message as the `websockets`-based `recv_loop`
sees it: either a text frame (delivered as `str`) or a binary frame
(delivered as `bytes`). -/
inductive WsMessage where
  | strMsg : String → WsMessage
  | bytesMsg : List Nat → WsMessage

/-- What one `recv_loop` body iteration does with an inbound message. -/
inductive IngestAction where
  | forward : List Nat → IngestAction
  | discard : IngestAction
  | exitLoop : IngestAction
deriving DecidableEq

/-- server_opus.py lines 114-126: non-`bytes` messages are logged and
skipped; zero-length messages are logged and skipped; `kind = message[0]`,
and for `kind == 1` the payload `message[1:]` is forwarded to
`opus_reader.append_bytes`; any other kind is logged and skipped. -/
def recvDispatch : WsMessage → IngestAction
  | .strMsg _ => .discard
  | .bytesMsg [] => .discard
  | .bytesMsg (kind :: payload) =>
      if kind = 1 then .forward payload else .discard

/-- An inbound event as the `aiohttp`-based `recv_loop` sees it:
a typed websocket message (`ERROR`, `CLOSED`, `TEXT`, or `BINARY`
carrying bytes). -/
inductive AioMessage where
  | errorMsg : AioMessage
  | closedMsg : AioMessage
  | textMsg : String → AioMessage
  | binaryMsg : List Nat → AioMessage

/-- moshi/server.py lines 82-103: `ERROR` and `CLOSED` break out of the
loop (transport-close notifications); any other non-`BINARY` type is
logged and skipped; a zero-length binary message is logged and skipped;
otherwise `kind = message[0]` and kind `1` forwards `message[1:]` to
`opus_reader.append_bytes`, while any other kind is logged and skipped. -/
def recvDispatchAio : AioMessage → IngestAction
  | .errorMsg => .exitLoop
  | .closedMsg => .exitLoop
  | .textMsg _ => .discard
  | .binaryMsg [] => .discard
  | .binaryMsg (kind :: payload) =>
      if kind = 1 then .forward payload else .discard

/-- C6: in both `recv_loop` variants, a binary message with kind byte 1
has its discriminant stripped and exactly the remaining bytes forwarded
to the adapter's decoder append; any other kind byte, a zero-length
message, and a text-typed message are each discarded (the loop continues
and the session stays active). -/
theorem ingest_dispatch (payload : List Nat) (kind : Nat) (s : String)
    (hk : kind ≠ 1) :
    recvDispatch (.bytesMsg (1 :: payload)) = .forward payload ∧
    recvDispatch (.bytesMsg (kind :: payload)) = .discard ∧
    recvDispatch (.bytesMsg []) = .discard ∧
    recvDispatch (.strMsg s) = .discard ∧
    recvDispatchAio (.binaryMsg (1 :: payload)) = .forward payload ∧
    recvDispatchAio (.binaryMsg (kind :: payload)) = .discard ∧
    recvDispatchAio (.binaryMsg []) = .discard ∧
    recvDispatchAio (.textMsg s) = .discard := by
  refine ⟨rfl, ?_, rfl, rfl, rfl, ?_, rfl, rfl⟩ <;>
    · show (if kind = 1 then IngestAction.forward payload else .discard) = _
      rw [if_neg hk]

/-- Witness for C6 on the concrete message `[7, 9]` (kind byte `0x07`):
both dispatchers discard it. -/
theorem ingest_dispatch_witness :
    recvDispatch (.bytesMsg [7, 9]) = .discard ∧
    recvDispatchAio (.binaryMsg [7, 9]) = .discard :=
  ⟨(ingest_dispatch [9] 7 "" (by decide)).2.1,
   (ingest_dispatch [9] 7 "" (by decide)).2.2.2.2.2.1⟩

/-- C9: a one-byte binary message whose only byte is the audio kind 1
is not discarded: the empty-message guard fires only on zero-length
messages, so the empty payload `message[1:] = b""` is forwarded to
`append_bytes`. -/
theorem ingest_empty_audio_payload :
    recvDispatch (.bytesMsg [1]) = .forward [] ∧
    recvDispatchAio (.binaryMsg [1]) = .forward [] :=
  ⟨rfl, rfl⟩

/-! ## Framing-codec decode (the inline guards of `recv_loop`,
server_opus.py lines 115-123) -/

/-- Failure of the framing-codec decode operation. -/
inductive ProtocolError where
  | emptyMessage : ProtocolError
deriving DecidableEq

/-- The framing-codec `decode` realized inline by `recv_loop`: an empty
byte string never yields a kind/payload pair (the `len(message) == 0`
guard takes the warn-and-drop path before `message[0]` is read); a
nonempty one splits into the discriminant `message[0]` and the payload
`message[1:]`. -/
def frameDecode : List Nat → Except ProtocolError (Nat × List Nat)
  | [] => .error .emptyMessage
  | kind :: payload => .ok (kind, payload)

/-- C7: decoding empty raw bytes fails with a `ProtocolError` instead of
returning a kind/payload pair, and text-typed transport frames are
dropped with a warning by the ingest dispatch before any decode, in both
`recv_loop` variants. -/
theorem frame_decode_empty (raw : List Nat) (s : String)
    (hraw : raw.length = 0) :
    frameDecode raw = .error .emptyMessage ∧
    recvDispatch (.strMsg s) = .discard ∧
    recvDispatchAio (.textMsg s) = .discard := by
  have : raw = [] := List.length_eq_zero.mp hraw
  subst this
  exact ⟨rfl, rfl, rfl⟩

/-- Witness for C7 at the empty byte string. -/
theorem frame_decode_empty_witness :
    frameDecode [] = .error .emptyMessage :=
  (frame_decode_empty [] "" rfl).1

/-! ## Session lifecycle (`handle_conn`, server_opus.py lines 182-191;
`handle_chat`, moshi/server.py lines 155-166)

The per-connection code runs, in program order: acquire `self.lock`
(`async with self.lock:`), call `reset_streaming()` on the model,
send the one-byte handshake `b"\x00"`, run the three loops
(which send kind-1 and kind-2 messages), and release the lock when the
`async with` block exits.  Under `asyncio`'s cooperative single-threaded
scheduling each of these is an atomic step of one session, and sessions
interleave arbitrarily at suspension points; the labelled transition
system below has exactly those steps. -/

/-- Where one session is in `handle_conn`. -/
inductive Phase where
  | idle : Phase
  | waiting : Phase
  | acquired : Phase
  | resetDone : Phase
  | active : Phase
  | closed : Phase
deriving DecidableEq

/-- Observable atomic step of a session `i`. -/
inductive Event where
  | arrive : Nat → Event
  | acquire : Nat → Event
  | resetStream : Nat → Event
  | shakeSend : Nat → Event
  | send : Nat → Nat → Event
  | release : Nat → Event
deriving DecidableEq

/-- Process-wide state: the phase of each session and the current holder
of the exclusivity lock `self.lock`. -/
structure Sys where
  phase : Nat → Phase
  holder : Option Nat

/-- Pointwise update of the session-phase map. -/
def upd (f : Nat → Phase) (i : Nat) (p : Phase) : Nat → Phase :=
  fun j => if j = i then p else f j

/-- One scheduler step: some session performs its next atomic operation.
`acquire` fires only when the lock is free (`asyncio.Lock` semantics);
`send i k` is a transport write of a kind-1 or kind-2 message by session
`i`'s loops; `release` models the exit of the `async with self.lock`
block. -/
inductive Step : Sys → Event → Sys → Prop where
  | arrive (s : Sys) (i : Nat) : s.phase i = .idle →
      Step s (.arrive i) ⟨upd s.phase i .waiting, s.holder⟩
  | acquire (s : Sys) (i : Nat) : s.phase i = .waiting → s.holder = none →
      Step s (.acquire i) ⟨upd s.phase i .acquired, some i⟩
  | resetStream (s : Sys) (i : Nat) : s.phase i = .acquired →
      Step s (.resetStream i) ⟨upd s.phase i .resetDone, s.holder⟩
  | shakeSend (s : Sys) (i : Nat) : s.phase i = .resetDone →
      Step s (.shakeSend i) ⟨upd s.phase i .active, s.holder⟩
  | send (s : Sys) (i k : Nat) : s.phase i = .active → k = 1 ∨ k = 2 →
      Step s (.send i k) s
  | release (s : Sys) (i : Nat) : s.phase i = .active →
      Step s (.release i) ⟨upd s.phase i .closed, none⟩

/-- A finite run, recording the events in order. -/
inductive Steps : Sys → List Event → Sys → Prop where
  | done (s : Sys) : Steps s [] s
  | more (s : Sys) (e : Event) (s' : Sys) (tr : List Event) (s'' : Sys) :
      Step s e s' → Steps s' tr s'' → Steps s (e :: tr) s''

/-- Server start: no session exists, the lock is free. -/
def initSys : Sys := ⟨fun _ => .idle, none⟩

/-- Progress order of the phases along `handle_conn`. -/
def Phase.rank : Phase → Nat
  | .idle => 0
  | .waiting => 1
  | .acquired => 2
  | .resetDone => 3
  | .active => 4
  | .closed => 5

/-- The phases during which a session holds the exclusivity lock:
from the acquisition to the end of the `async with` block. -/
def holdsLock (p : Phase) : Prop :=
  p = .acquired ∨ p = .resetDone ∨ p = .active

/-- The lock bookkeeping is consistent: a session is in a lock-holding
phase exactly when it is the recorded holder. -/
def goodState (s : Sys) : Prop :=
  ∀ i, holdsLock (s.phase i) ↔ s.holder = some i

theorem initSys_good : goodState initSys := by
  intro i
  constructor
  · intro h
    rcases h with h | h | h <;> cases h
  · intro h
    cases h

theorem upd_same (f : Nat → Phase) (i : Nat) (p : Phase) :
    upd f i p i = p := by
  simp [upd]

theorem upd_other (f : Nat → Phase) (i : Nat) (p : Phase) (j : Nat)
    (h : j ≠ i) : upd f i p j = f j := by
  simp [upd, h]

theorem step_good {s s' : Sys} {e : Event} (hs : Step s e s')
    (hg : goodState s) : goodState s' := by
  cases hs with
  | arrive i hp =>
    intro j
    show holdsLock (upd s.phase i .waiting j) ↔ s.holder = some j
    by_cases hij : j = i
    · subst hij
      rw [upd_same]
      constructor
      · intro h
        rcases h with h | h | h <;> simp at h
      · intro h
        have h2 := (hg j).mpr h
        rw [hp] at h2
        rcases h2 with h2 | h2 | h2 <;> simp at h2
    · rw [upd_other _ _ _ _ hij]
      exact hg j
  | acquire i hp hh =>
    intro j
    show holdsLock (upd s.phase i .acquired j) ↔ some i = some j
    by_cases hij : j = i
    · subst hij
      rw [upd_same]
      constructor
      · intro _
        rfl
      · intro _
        exact Or.inl rfl
    · rw [upd_other _ _ _ _ hij]
      constructor
      · intro h
        have h2 := (hg j).mp h
        rw [hh] at h2
        cases h2
      · intro h
        injection h with h2
        exact absurd h2.symm hij
  | resetStream i hp =>
    intro j
    show holdsLock (upd s.phase i .resetDone j) ↔ s.holder = some j
    by_cases hij : j = i
    · subst hij
      rw [upd_same]
      have h2 := (hg j).mp (by rw [hp]; exact Or.inl rfl)
      constructor
      · intro _
        exact h2
      · intro _
        exact Or.inr (Or.inl rfl)
    · rw [upd_other _ _ _ _ hij]
      exact hg j
  | shakeSend i hp =>
    intro j
    show holdsLock (upd s.phase i .active j) ↔ s.holder = some j
    by_cases hij : j = i
    · subst hij
      rw [upd_same]
      have h2 := (hg j).mp (by rw [hp]; exact Or.inr (Or.inl rfl))
      constructor
      · intro _
        exact h2
      · intro _
        exact Or.inr (Or.inr rfl)
    · rw [upd_other _ _ _ _ hij]
      exact hg j
  | send i k hp hk =>
    exact hg
  | release i hp =>
    intro j
    show holdsLock (upd s.phase i .closed j) ↔ none = some j
    by_cases hij : j = i
    · subst hij
      rw [upd_same]
      constructor
      · intro h
        rcases h with h | h | h <;> simp at h
      · intro h
        cases h
    · rw [upd_other _ _ _ _ hij]
      constructor
      · intro h
        have h1 := (hg j).mp h
        have h2 := (hg i).mp (by rw [hp]; exact Or.inr (Or.inr rfl))
        rw [h2] at h1
        injection h1 with h1
        exact absurd h1.symm hij
      · intro h
        cases h

theorem steps_good {s s' : Sys} {tr : List Event} (hs : Steps s tr s')
    (hg : goodState s) : goodState s' := by
  induction hs with
  | done s => exact hg
  | more s e s1 tr s'' h1 h2 ih => exact ih (step_good h1 hg)

theorem steps_append_split {s s'' : Sys} {a b : List Event}
    (h : Steps s (a ++ b) s'') : ∃ s', Steps s a s' ∧ Steps s' b s'' := by
  induction a generalizing s with
  | nil => exact ⟨s, Steps.done s, h⟩
  | cons e a ih =>
    cases h with
    | more _ _ s1 _ _ h1 h2 =>
      obtain ⟨sm, hm1, hm2⟩ := ih h2
      exact ⟨sm, Steps.more _ _ _ _ _ h1 hm1, hm2⟩

theorem steps_cons_split {s s'' : Sys} {e : Event} {tr : List Event}
    (h : Steps s (e :: tr) s'') : ∃ s', Step s e s' ∧ Steps s' tr s'' := by
  cases h with
  | more _ _ s1 _ _ h1 h2 => exact ⟨s1, h1, h2⟩

theorem step_rank_mono {s s' : Sys} {e : Event} (hs : Step s e s') (i : Nat) :
    (s.phase i).rank ≤ (s'.phase i).rank := by
  cases hs with
  | arrive j hp =>
    show _ ≤ (upd s.phase j .waiting i).rank
    by_cases hij : i = j
    · subst hij
      rw [upd_same, hp]
      decide
    · rw [upd_other _ _ _ _ hij]
  | acquire j hp hh =>
    show _ ≤ (upd s.phase j .acquired i).rank
    by_cases hij : i = j
    · subst hij
      rw [upd_same, hp]
      decide
    · rw [upd_other _ _ _ _ hij]
  | resetStream j hp =>
    show _ ≤ (upd s.phase j .resetDone i).rank
    by_cases hij : i = j
    · subst hij
      rw [upd_same, hp]
      decide
    · rw [upd_other _ _ _ _ hij]
  | shakeSend j hp =>
    show _ ≤ (upd s.phase j .active i).rank
    by_cases hij : i = j
    · subst hij
      rw [upd_same, hp]
      decide
    · rw [upd_other _ _ _ _ hij]
  | send j k hp hk =>
    exact le_refl _
  | release j hp =>
    show _ ≤ (upd s.phase j .closed i).rank
    by_cases hij : i = j
    · subst hij
      rw [upd_same, hp]
      decide
    · rw [upd_other _ _ _ _ hij]

theorem steps_rank_mono {s s' : Sys} {tr : List Event} (hs : Steps s tr s')
    (i : Nat) : (s.phase i).rank ≤ (s'.phase i).rank := by
  induction hs with
  | done s => exact le_refl _
  | more s e s1 tr s'' h1 h2 ih => exact le_trans (step_rank_mono h1 i) ih

theorem step_cross_active {s s' : Sys} {e : Event} (hs : Step s e s')
    (i : Nat) (h4 : 4 ≤ (s'.phase i).rank) :
    4 ≤ (s.phase i).rank ∨ e = .shakeSend i := by
  cases hs with
  | arrive j hp =>
    by_cases hij : i = j
    · subst hij
      rw [show (⟨upd s.phase i .waiting, s.holder⟩ : Sys).phase i
          = Phase.waiting from upd_same _ _ _] at h4
      simp [Phase.rank] at h4
    · rw [show (⟨upd s.phase j .waiting, s.holder⟩ : Sys).phase i
          = s.phase i from upd_other _ _ _ _ hij] at h4
      exact Or.inl h4
  | acquire j hp hh =>
    by_cases hij : i = j
    · subst hij
      rw [show (⟨upd s.phase i .acquired, some i⟩ : Sys).phase i
          = Phase.acquired from upd_same _ _ _] at h4
      simp [Phase.rank] at h4
    · rw [show (⟨upd s.phase j .acquired, some j⟩ : Sys).phase i
          = s.phase i from upd_other _ _ _ _ hij] at h4
      exact Or.inl h4
  | resetStream j hp =>
    by_cases hij : i = j
    · subst hij
      rw [show (⟨upd s.phase i .resetDone, s.holder⟩ : Sys).phase i
          = Phase.resetDone from upd_same _ _ _] at h4
      simp [Phase.rank] at h4
    · rw [show (⟨upd s.phase j .resetDone, s.holder⟩ : Sys).phase i
          = s.phase i from upd_other _ _ _ _ hij] at h4
      exact Or.inl h4
  | shakeSend j hp =>
    by_cases hij : i = j
    · subst hij
      exact Or.inr rfl
    · rw [show (⟨upd s.phase j .active, s.holder⟩ : Sys).phase i
          = s.phase i from upd_other _ _ _ _ hij] at h4
      exact Or.inl h4
  | send j k hp hk =>
    exact Or.inl h4
  | release j hp =>
    by_cases hij : i = j
    · subst hij
      rw [hp]
      exact Or.inl (by decide)
    · rw [show (⟨upd s.phase j .closed, none⟩ : Sys).phase i
          = s.phase i from upd_other _ _ _ _ hij] at h4
      exact Or.inl h4

theorem step_cross_reset {s s' : Sys} {e : Event} (hs : Step s e s')
    (i : Nat) (h3 : 3 ≤ (s'.phase i).rank) :
    3 ≤ (s.phase i).rank ∨ e = .resetStream i := by
  cases hs with
  | arrive j hp =>
    by_cases hij : i = j
    · subst hij
      rw [show (⟨upd s.phase i .waiting, s.holder⟩ : Sys).phase i
          = Phase.waiting from upd_same _ _ _] at h3
      simp [Phase.rank] at h3
    · rw [show (⟨upd s.phase j .waiting, s.holder⟩ : Sys).phase i
          = s.phase i from upd_other _ _ _ _ hij] at h3
      exact Or.inl h3
  | acquire j hp hh =>
    by_cases hij : i = j
    · subst hij
      rw [show (⟨upd s.phase i .acquired, some i⟩ : Sys).phase i
          = Phase.acquired from upd_same _ _ _] at h3
      simp [Phase.rank] at h3
    · rw [show (⟨upd s.phase j .acquired, some j⟩ : Sys).phase i
          = s.phase i from upd_other _ _ _ _ hij] at h3
      exact Or.inl h3
  | resetStream j hp =>
    by_cases hij : i = j
    · subst hij
      exact Or.inr rfl
    · rw [show (⟨upd s.phase j .resetDone, s.holder⟩ : Sys).phase i
          = s.phase i from upd_other _ _ _ _ hij] at h3
      exact Or.inl h3
  | shakeSend j hp =>
    by_cases hij : i = j
    · subst hij
      rw [hp]
      exact Or.inl (by decide)
    · rw [show (⟨upd s.phase j .active, s.holder⟩ : Sys).phase i
          = s.phase i from upd_other _ _ _ _ hij] at h3
      exact Or.inl h3
  | send j k hp hk =>
    exact Or.inl h3
  | release j hp =>
    by_cases hij : i = j
    · subst hij
      rw [hp]
      exact Or.inl (by decide)
    · rw [show (⟨upd s.phase j .closed, none⟩ : Sys).phase i
          = s.phase i from upd_other _ _ _ _ hij] at h3
      exact Or.inl h3

theorem steps_cross_active {s s' : Sys} {tr : List Event} (hs : Steps s tr s')
    (i : Nat) (h4 : 4 ≤ (s'.phase i).rank) :
    4 ≤ (s.phase i).rank ∨ Event.shakeSend i ∈ tr := by
  induction hs with
  | done s => exact Or.inl h4
  | more s e s1 tr s'' h1 h2 ih =>
    rcases ih h4 with hc | hc
    · rcases step_cross_active h1 i hc with hd | hd
      · exact Or.inl hd
      · subst hd
        exact Or.inr (List.mem_cons_self _ _)
    · exact Or.inr (List.mem_cons_of_mem _ hc)

theorem steps_cross_reset {s s' : Sys} {tr : List Event} (hs : Steps s tr s')
    (i : Nat) (h3 : 3 ≤ (s'.phase i).rank) :
    3 ≤ (s.phase i).rank ∨ Event.resetStream i ∈ tr := by
  induction hs with
  | done s => exact Or.inl h3
  | more s e s1 tr s'' h1 h2 ih =>
    rcases ih h3 with hc | hc
    · rcases step_cross_reset h1 i hc with hd | hd
      · exact Or.inl hd
      · subst hd
        exact Or.inr (List.mem_cons_self _ _)
    · exact Or.inr (List.mem_cons_of_mem _ hc)

theorem step_shake_inv {s s' : Sys} {i : Nat}
    (h : Step s (.shakeSend i) s') :
    s.phase i = .resetDone ∧ s'.holder = s.holder ∧ s'.phase i = .active := by
  cases h with
  | shakeSend _ hp => exact ⟨hp, rfl, upd_same _ _ _⟩

theorem step_send_inv {s s' : Sys} {i k : Nat}
    (h : Step s (.send i k) s') : s.phase i = .active ∧ s' = s := by
  cases h with
  | send _ _ hp hk => exact ⟨hp, rfl⟩

theorem step_reset_inv {s s' : Sys} {i : Nat}
    (h : Step s (.resetStream i) s') :
    s.phase i = .acquired ∧ s'.phase i = .resetDone := by
  cases h with
  | resetStream _ hp => exact ⟨hp, upd_same _ _ _⟩

theorem step_holder_keep {s s' : Sys} {e : Event} {i : Nat}
    (hs : Step s e s') (hg : goodState s) (hh : s.holder = some i)
    (hne : e ≠ .release i) : s'.holder = some i := by
  cases hs with
  | arrive j hp => exact hh
  | acquire j hp hh2 =>
    rw [hh2] at hh
    cases hh
  | resetStream j hp => exact hh
  | shakeSend j hp => exact hh
  | send j k hp hk => exact hh
  | release j hp =>
    have h2 := (hg j).mp (by rw [hp]; exact Or.inr (Or.inr rfl))
    rw [hh] at h2
    injection h2 with h2
    subst h2
    exact absurd rfl hne

theorem steps_holder_keep {s s' : Sys} {tr : List Event} {i : Nat}
    (hs : Steps s tr s') (hg : goodState s) (hh : s.holder = some i)
    (hmem : Event.release i ∉ tr) : s'.holder = some i := by
  induction hs with
  | done s => exact hh
  | more s e s1 tr s'' h1 h2 ih =>
    have hne : e ≠ .release i := fun he => hmem (he ▸ List.mem_cons_self _ _)
    exact ih (step_good h1 hg) (step_holder_keep h1 hg hh hne)
      (fun hm => hmem (List.mem_cons_of_mem _ hm))

theorem mem_reset_rank {s s' : Sys} {tr : List Event} {i : Nat}
    (hs : Steps s tr s') (hmem : Event.resetStream i ∈ tr) :
    3 ≤ (s'.phase i).rank := by
  induction hs with
  | done s => cases hmem
  | more s e s1 tr s'' h1 h2 ih =>
    rcases List.mem_cons.mp hmem with he | he
    · subst he
      have h3 := (step_reset_inv h1).2
      have := steps_rank_mono h2 i
      rw [h3] at this
      exact this
    · exact ih he

/-! ## Claim theorems for the session lifecycle -/

/-- C2: in every reachable state at most one session holds the Model
Resource exclusivity lock (at most one session is in a lock-holding
phase process-wide), and whenever one session's kind-0 handshake is
followed in the run by a different session's kind-0 handshake, the
first session released the lock (fully closed) strictly in between. -/
theorem single_active_session (tr : List Event) (s : Sys)
    (h : Steps initSys tr s) :
    (∀ i j : Nat, holdsLock (s.phase i) → holdsLock (s.phase j) → i = j) ∧
    (∀ i j : Nat, ∀ t1 t2 t3 : List Event, i ≠ j →
      tr = t1 ++ Event.shakeSend i :: (t2 ++ Event.shakeSend j :: t3) →
      Event.release i ∈ t2) := by
  have hg := steps_good h initSys_good
  constructor
  · intro i j hi hj
    have h1 := (hg i).mp hi
    have h2 := (hg j).mp hj
    rw [h1] at h2
    exact Option.some.inj h2
  · intro i j t1 t2 t3 hne hdec
    subst hdec
    obtain ⟨s1, hs1, hrest⟩ := steps_append_split h
    obtain ⟨s2, hstep1, hrest2⟩ := steps_cons_split hrest
    obtain ⟨s3, hs3, hrest3⟩ := steps_append_split hrest2
    obtain ⟨s4, hstep2, _⟩ := steps_cons_split hrest3
    have hg1 : goodState s1 := steps_good hs1 initSys_good
    have hg2 : goodState s2 := step_good hstep1 hg1
    have hg3 : goodState s3 := steps_good hs3 hg2
    obtain ⟨hp1, hh1, _⟩ := step_shake_inv hstep1
    obtain ⟨hp2, _, _⟩ := step_shake_inv hstep2
    have hold1 : s1.holder = some i :=
      (hg1 i).mp (by rw [hp1]; exact Or.inr (Or.inl rfl))
    have hold2 : s2.holder = some i := by
      rw [hh1]
      exact hold1
    have hold3 : s3.holder = some j :=
      (hg3 j).mp (by rw [hp2]; exact Or.inr (Or.inl rfl))
    by_contra hmem
    have hkeep := steps_holder_keep hs3 hg2 hold2 hmem
    rw [hkeep] at hold3
    injection hold3 with h4
    exact hne h4

/-- Witness for C2: the run in which client 0 arrives, acquires the
lock, resets, handshakes, releases, and then client 1 goes through the
same sequence; the theorem yields that client 0's release lies between
the two handshakes. -/
theorem single_active_session_witness :
    Event.release 0 ∈ ([Event.release 0, Event.arrive 1, Event.acquire 1,
      Event.resetStream 1] : List Event) := by
  have hsteps : ∃ s, Steps initSys
      [Event.arrive 0, Event.acquire 0, Event.resetStream 0,
       Event.shakeSend 0, Event.release 0, Event.arrive 1, Event.acquire 1,
       Event.resetStream 1, Event.shakeSend 1] s :=
    ⟨_, Steps.more _ _ _ _ _ (Step.arrive _ 0 rfl)
      (Steps.more _ _ _ _ _ (Step.acquire _ 0 rfl rfl)
      (Steps.more _ _ _ _ _ (Step.resetStream _ 0 rfl)
      (Steps.more _ _ _ _ _ (Step.shakeSend _ 0 rfl)
      (Steps.more _ _ _ _ _ (Step.release _ 0 rfl)
      (Steps.more _ _ _ _ _ (Step.arrive _ 1 rfl)
      (Steps.more _ _ _ _ _ (Step.acquire _ 1 rfl rfl)
      (Steps.more _ _ _ _ _ (Step.resetStream _ 1 rfl)
      (Steps.more _ _ _ _ _ (Step.shakeSend _ 1 rfl)
      (Steps.done _)))))))))⟩
  obtain ⟨s, hs⟩ := hsteps
  exact (single_active_session _ s hs).2 0 1
    [Event.arrive 0, Event.acquire 0, Event.resetStream 0]
    [Event.release 0, Event.arrive 1, Event.acquire 1, Event.resetStream 1]
    [] (by decide) rfl

/-- C3: in every reachable run, any kind-1 or kind-2 send of a session
is preceded by that session's kind-0 handshake; the handshake is
preceded by that session's `reset_streaming` call; and the
`reset_streaming` call happens at most once per session — so it runs
exactly once, after lock acquisition and before the handshake, and
before any frame output of the session. -/
theorem session_startup_order (tr : List Event) (s : Sys)
    (h : Steps initSys tr s) :
    (∀ i k : Nat, ∀ t1 t2 : List Event,
      tr = t1 ++ Event.send i k :: t2 → Event.shakeSend i ∈ t1) ∧
    (∀ i : Nat, ∀ t1 t2 : List Event,
      tr = t1 ++ Event.shakeSend i :: t2 → Event.resetStream i ∈ t1) ∧
    (∀ i : Nat, ∀ t1 t2 : List Event,
      tr = t1 ++ Event.resetStream i :: t2 →
        Event.resetStream i ∉ t1 ∧ Event.resetStream i ∉ t2) := by
  refine ⟨?_, ?_, ?_⟩
  · intro i k t1 t2 hdec
    subst hdec
    obtain ⟨s1, hs1, hrest⟩ := steps_append_split h
    obtain ⟨s2, hstep, _⟩ := steps_cons_split hrest
    have hp := (step_send_inv hstep).1
    have h4 : 4 ≤ (s1.phase i).rank := by
      rw [hp]
      decide
    rcases steps_cross_active hs1 i h4 with hc | hc
    · have : (initSys.phase i).rank = 0 := rfl
      omega
    · exact hc
  · intro i t1 t2 hdec
    subst hdec
    obtain ⟨s1, hs1, hrest⟩ := steps_append_split h
    obtain ⟨s2, hstep, _⟩ := steps_cons_split hrest
    have hp := (step_shake_inv hstep).1
    have h3 : 3 ≤ (s1.phase i).rank := by
      rw [hp]
      decide
    rcases steps_cross_reset hs1 i h3 with hc | hc
    · have : (initSys.phase i).rank = 0 := rfl
      omega
    · exact hc
  · intro i t1 t2 hdec
    subst hdec
    obtain ⟨s1, hs1, hrest⟩ := steps_append_split h
    obtain ⟨s2, hstep, hs2⟩ := steps_cons_split hrest
    obtain ⟨hpre, hpost⟩ := step_reset_inv hstep
    constructor
    · intro hmem
      have h3 := mem_reset_rank hs1 hmem
      rw [hpre] at h3
      simp [Phase.rank] at h3
    · intro hmem
      obtain ⟨a, b, hab⟩ := List.append_of_mem hmem
      subst hab
      obtain ⟨s3, hs3, hrest3⟩ := steps_append_split hs2
      obtain ⟨s4, hstep2, _⟩ := steps_cons_split hrest3
      have hpre2 := (step_reset_inv hstep2).1
      have hmono := steps_rank_mono hs3 i
      rw [hpost, hpre2] at hmono
      simp [Phase.rank] at hmono

/-- Witness for C3: in the run arrive, acquire, reset, handshake,
send-kind-2, the theorem yields that the handshake precedes the send. -/
theorem session_startup_order_witness :
    Event.shakeSend 0 ∈ ([Event.arrive 0, Event.acquire 0,
      Event.resetStream 0, Event.shakeSend 0] : List Event) := by
  have hsteps : ∃ s, Steps initSys
      [Event.arrive 0, Event.acquire 0, Event.resetStream 0,
       Event.shakeSend 0, Event.send 0 2] s :=
    ⟨_, Steps.more _ _ _ _ _ (Step.arrive _ 0 rfl)
      (Steps.more _ _ _ _ _ (Step.acquire _ 0 rfl rfl)
      (Steps.more _ _ _ _ _ (Step.resetStream _ 0 rfl)
      (Steps.more _ _ _ _ _ (Step.shakeSend _ 0 rfl)
      (Steps.more _ _ _ _ _ (Step.send _ 0 2 rfl (Or.inr rfl))
      (Steps.done _)))))⟩
  obtain ⟨s, hs⟩ := hsteps
  exact (session_startup_order _ s hs).1 0 2
    [Event.arrive 0, Event.acquire 0, Event.resetStream 0, Event.shakeSend 0]
    [] rfl

/-! ## Model-failure teardown (`handle_conn`, server_opus.py lines
182-191)

If a Model Resource call inside `opus_loop` raises, the exception
propagates through `asyncio.gather`, the `async with self.lock` block
releases the lock on the way out, the handler returns with the error and
the server closes the websocket, and `recv_loop`'s `finally` sets
`close = True`.  The session trace below records this program order; the
model calls for one frame are collapsed into the `encode` attempt that
starts them (an exception from `step` or `decode` aborts the same frame
the same way). -/

/-- Events of a single session run, used for the teardown trace. -/
inductive SessEvent where
  | lockAcquired : SessEvent
  | streamingReset : SessEvent
  | handshakeSent : SessEvent
  | encodeCall : Nat → SessEvent
  | lockReleased : SessEvent
  | closingSet : SessEvent
deriving DecidableEq

/-- The Model Resource calls made by `opus_loop` over the frames, in
order, starting at frame index `k`: frame `k` is attempted; if the model
raises on it the exception propagates (no retry, no further frames),
otherwise processing continues with the next frame.  Returns the indices
of the attempted frames and whether a model error occurred. -/
def encodeCallsUntilError (modelFails : Nat → Bool) :
    List (List α) → Nat → List Nat × Bool
  | [], _ => ([], false)
  | _ :: frames, k =>
    if modelFails k then ([k], true)
    else
      let r := encodeCallsUntilError modelFails frames (k + 1)
      (k :: r.1, r.2)

/-- The whole-session trace of `handle_conn`: lock acquisition, the
`reset_streaming` calls, the handshake, the model calls (which stop at
the first model error), then — whether or not an error occurred — the
lock release at the exit of `async with`, followed by the connection
teardown that sets `close` in `recv_loop`'s `finally`. -/
def sessionTrace (modelFails : Nat → Bool) (frames : List (List α)) :
    List SessEvent :=
  [SessEvent.lockAcquired, SessEvent.streamingReset, SessEvent.handshakeSent]
    ++ ((encodeCallsUntilError modelFails frames 0).1.map SessEvent.encodeCall)
    ++ [SessEvent.lockReleased, SessEvent.closingSet]

theorem encodeCalls_lb (modelFails : Nat → Bool) (frames : List (List α))
    (k : Nat) : ∀ j ∈ (encodeCallsUntilError modelFails frames k).1, k ≤ j := by
  induction frames generalizing k with
  | nil =>
    intro j hj
    cases hj
  | cons f frames ih =>
    intro j hj
    unfold encodeCallsUntilError at hj
    by_cases hf : modelFails k = true
    · rw [if_pos hf] at hj
      rcases List.mem_singleton.mp hj with rfl
      exact le_refl _
    · rw [if_neg hf] at hj
      rcases List.mem_cons.mp hj with rfl | hj
      · exact le_refl _
      · exact le_trans (Nat.le_succ k) (ih (k + 1) j hj)

theorem encodeCalls_pairwise (modelFails : Nat → Bool)
    (frames : List (List α)) (k : Nat) :
    ((encodeCallsUntilError modelFails frames k).1).Pairwise (· < ·) := by
  induction frames generalizing k with
  | nil => exact List.Pairwise.nil
  | cons f frames ih =>
    unfold encodeCallsUntilError
    by_cases hf : modelFails k = true
    · rw [if_pos hf]
      exact List.pairwise_singleton _ _
    · rw [if_neg hf]
      refine List.Pairwise.cons ?_ (ih (k + 1))
      intro j hj
      exact lt_of_lt_of_le (Nat.lt_succ_self k)
        (encodeCalls_lb modelFails frames (k + 1) j hj)

theorem getLast?_cons_of_some {l : List β} {j : β} (a : β)
    (h : l.getLast? = some j) : (a :: l).getLast? = some j := by
  rw [List.getLast?_cons]
  cases l with
  | nil => cases h
  | cons b t =>
    simp [List.getLast?_cons] at h ⊢
    exact h

theorem encodeCalls_err_last (modelFails : Nat → Bool)
    (frames : List (List α)) (k : Nat)
    (herr : (encodeCallsUntilError modelFails frames k).2 = true) :
    ∃ j, (encodeCallsUntilError modelFails frames k).1.getLast? = some j ∧
      modelFails j = true := by
  induction frames generalizing k with
  | nil => cases herr
  | cons f frames ih =>
    unfold encodeCallsUntilError at herr ⊢
    by_cases hf : modelFails k = true
    · rw [if_pos hf] at herr ⊢
      exact ⟨k, rfl, hf⟩
    · rw [if_neg hf] at herr ⊢
      obtain ⟨j, hj1, hj2⟩ := ih (k + 1) herr
      exact ⟨j, getLast?_cons_of_some k hj1, hj2⟩

/-- C8: a model-resource exception tears the whole session down: the
trace of the session ends with the lock release and the closing of the
connection (so a later session can acquire the lock), every frame is
attempted by `encode` at most once (the attempted indices are strictly
increasing, so no frame is retried), and when a model error occurred
the failing frame is the last model call made — nothing is processed
after it. -/
theorem model_failure_teardown (modelFails : Nat → Bool)
    (frames : List (List α)) (es : List Nat) (b : Bool)
    (h : encodeCallsUntilError modelFails frames 0 = (es, b)) :
    (sessionTrace modelFails frames).getLast? = some SessEvent.closingSet ∧
    SessEvent.lockReleased ∈ sessionTrace modelFails frames ∧
    es.Nodup ∧
    (b = true → ∃ j, es.getLast? = some j ∧ modelFails j = true) := by
  refine ⟨?_, ?_, ?_, ?_⟩
  · unfold sessionTrace
    rw [List.append_assoc, List.getLast?_append, List.getLast?_append]
    rfl
  · unfold sessionTrace
    refine List.mem_append.mpr (Or.inr ?_)
    exact List.mem_cons_self _ _
  · have hp := encodeCalls_pairwise modelFails frames 0
    rw [h] at hp
    exact hp.imp Nat.ne_of_lt
  · intro hb
    have := encodeCalls_err_last modelFails frames 0 (by rw [h]; exact hb)
    rw [h] at this
    exact this

/-- Witness for C8: three frames with the model failing on the second
call; the attempted frame indices are `[0, 1]`, each attempted once. -/
theorem model_failure_teardown_witness :
    ([0, 1] : List Nat).Nodup :=
  (model_failure_teardown (fun k => decide (k = 1))
    [[(0 : Nat)], [0], [0]] [0, 1] true (by decide)).2.2.1

end NLM
